import Mathlib

set_option maxRecDepth 8000

/-!
Verification of the sdow (Six Degrees of Wikipedia) backend.

The repository consists of a Flask HTTP layer (src/backend/sdow/server.py), a
database wrapper (src/backend/sdow/database.py) and an offline pruning script.
The database wrapper imports the bidirectional breadth-first search engine
(`breadth_first_search`) and small helpers (`validate_page_id`,
`get_sanitized_page_title`, ...) from modules that are not part of the source
listing; those are modelled from the specification (their definitions carry a
doc comment starting with "Modelled from the spec:").  Everything else is a
direct shallow embedding of the Python source:

* the Adjacency Store is a directed graph over integer page IDs;
* the `pages` / `redirects` / `links` tables are lists of rows, and SQL
  queries are embedded with their PostgreSQL semantics (a `WHERE id IN ()`
  clause is a malformed query, `SUM` over zero rows is NULL);
* fallible Python code (raised exceptions) becomes `Except`.
-/

/-- A directed graph over integer page IDs: the node set of the Adjacency
Store together with its directed edge list.  Edges are implicit in per-node
adjacency lists in the store; the edge list here is the graph itself. -/
structure Graph where
  nodes : List Nat
  edges : List (Nat × Nat)

/-- Boolean membership test for a directed edge. -/
def Graph.edgeB (g : Graph) (a b : Nat) : Bool :=
  g.edges.contains (a, b)

/-- Outgoing neighbor list of a node (the adjacency record of spec section 3). -/
def Graph.outNbrs (g : Graph) (v : Nat) : List Nat :=
  (g.edges.filter (fun e => e.1 == v)).map (fun e => e.2)

/-- Incoming neighbor list of a node. -/
def Graph.inNbrs (g : Graph) (v : Nat) : List Nat :=
  (g.edges.filter (fun e => e.2 == v)).map (fun e => e.1)

/-- Sum of outgoing degrees over a batch of nodes; the degree counters of the
Adjacency Store equal the cardinality of the neighbor lists (spec section 3),
so the cost estimate is computed from the neighbor lists themselves. -/
def Graph.outDegreeSum (g : Graph) (ids : List Nat) : Nat :=
  (ids.map (fun v => (g.outNbrs v).length)).sum

/-- Sum of incoming degrees over a batch of nodes. -/
def Graph.inDegreeSum (g : Graph) (ids : List Nat) : Nat :=
  (ids.map (fun v => (g.inNbrs v).length)).sum

/-- Boolean test that every two consecutive entries of a list are related by
the edge relation `E`. -/
def chainB (E : Nat → Nat → Bool) : List Nat → Bool
  | [] => true
  | [_] => true
  | a :: b :: r => E a b && chainB E (b :: r)

/-- A path in the sense of the spec (section 3): an ordered sequence of node
IDs starting at `s`, ending at `t`, following edges of `E`. -/
def IsWalk (E : Nat → Nat → Bool) (s t : Nat) (p : List Nat) : Prop :=
  p.head? = some s ∧ p.getLast? = some t ∧ chainB E p = true

/-- There is a path from `s` to `t` with exactly `n` edges (`n + 1` nodes). -/
def hasWalkLen (E : Nat → Nat → Bool) (s t : Nat) (n : Nat) : Prop :=
  ∃ p, IsWalk E s t p ∧ p.length = n + 1

/-- The true graph distance from `s` to `t` is `d` edges. -/
def distIs (E : Nat → Nat → Bool) (s t : Nat) (d : Nat) : Prop :=
  hasWalkLen E s t d ∧ ∀ j, hasWalkLen E s t j → d ≤ j

/-- `p` is a shortest path from `s` to `t`: a path with no shorter path. -/
def IsShortestWalk (E : Nat → Nat → Bool) (s t : Nat) (p : List Nat) : Prop :=
  IsWalk E s t p ∧ ∀ q, IsWalk E s t q → p.length ≤ q.length

/-- Visited map of one search direction: a finite map from a node to the set
of its parents in that direction (spec section 3, "Frontier"). -/
abbrev VisitMap := List (Nat × List Nat)

/-- The nodes recorded in a visited map. -/
def vmKeys (m : VisitMap) : List Nat := m.map Prod.fst

/-- Association lookup in a visited map. -/
def vmLookup : VisitMap → Nat → Option (List Nat)
  | [], _ => none
  | (w, ps) :: rest, v => if w = v then some ps else vmLookup rest v

/-- Modelled from the spec: one expansion round of one direction (spec section
4.2 step 3b); the `breadth_first_search` module imported by database.py is not
under src.  Every neighbor of the frontier that is not already present in the
direction's visited map becomes a next-generation node, and it records as
parents all frontier nodes with an edge to it (multiple parents at the same
generation are kept: they are what produces multiple shortest paths). -/
def expandFront (nbrs : Nat → List Nat) (visKeys front : List Nat) : VisitMap :=
  ((front.flatMap nbrs).dedup.filter (fun v => !visKeys.contains v)).map
    (fun v => (v, front.filter (fun u => (nbrs u).contains v)))

/-- Modelled from the spec: the visited map and frontier of one search
direction after `k` expansion rounds, starting from the root `s` with no
parent (spec section 4.2 steps 2 and 3b-3c). -/
def visFront (nbrs : Nat → List Nat) (s : Nat) : Nat → VisitMap × List Nat
  | 0 => ([(s, [])], [s])
  | k + 1 =>
    let vf := visFront nbrs s k
    let nm := expandFront nbrs (vmKeys vf.1) vf.2
    (vf.1 ++ nm, vmKeys nm)

/-- Modelled from the spec: enumeration of all parent-link chains from a node
back to the root of its direction (spec section 4.3); the root is the unique
node with an empty parent set.  Produces root-first sequences.  The fuel
argument bounds the recursion depth; callers pass more fuel than the number
of generations. -/
def enumPaths (vis : VisitMap) : Nat → Nat → List (List Nat)
  | 0, _ => []
  | fuel + 1, v =>
    match vmLookup vis v with
    | none => []
    | some ps =>
      if ps.isEmpty then [[v]]
      else ps.flatMap (fun u => (enumPaths vis fuel u).map (fun q => q ++ [v]))

/-- Intersection of two id lists. -/
def listInter (a b : List Nat) : List Nat := a.filter (fun v => b.contains v)

/-- Modelled from the spec: the Path Reconstructor (spec section 4.3).  For
every meeting node `m` it takes the Cartesian product of the source-to-`m`
chains of the forward map and the `m`-to-target chains of the backward map
(writing `m` once), unions over meeting nodes and deduplicates. -/
def reconstructPaths (fvis bvis : VisitMap) (meet : List Nat) : List (List Nat) :=
  (meet.flatMap (fun m =>
    (enumPaths fvis (fvis.length + 1) m).flatMap (fun pf =>
      (enumPaths bvis (bvis.length + 1) m).map (fun pb => pf ++ pb.reverse.tail)))).dedup

/-- Search state of one engine invocation (spec section 3, "Search State"):
the two visited maps with parent links, the two current frontiers, and the
two half-distance counters. -/
structure BiState where
  fvis : VisitMap
  ffront : List Nat
  fdist : Nat
  bvis : VisitMap
  bfront : List Nat
  bdist : Nat

/-- The direction chosen for one expansion round. -/
inductive Dir where
  | fwd
  | bwd

/-- Modelled from the spec: cost-based direction selection (spec section 4.2
step 3a): expand the side with the smaller estimated fan-out, tie-break by
expanding forward. -/
def costChooser (g : Graph) (st : BiState) : Dir :=
  if g.outDegreeSum st.ffront ≤ g.inDegreeSum st.bfront then Dir.fwd else Dir.bwd

/-- Modelled from the spec: the main loop of the bidirectional BFS engine
(spec section 4.2 step 3, with the stopping rule in the form of the governing
invariant of section 9): while neither frontier is empty, expand the chosen
side by one full generation, then intersect the two visited node sets; a
non-empty intersection means both sides are synchronized at the minimal total
distance, and the Path Reconstructor runs on the meeting nodes.  If a
frontier empties first the target is unreachable and the path list is empty.
The fuel argument makes the recursion structural; `searchFuel` below always
suffices for a genuine exit. -/
def bfsLoop (g : Graph) (chooser : BiState → Dir) : Nat → BiState → List (List Nat)
  | 0, _ => []
  | fuel + 1, st =>
    if st.ffront.isEmpty || st.bfront.isEmpty then []
    else
      match chooser st with
      | Dir.fwd =>
        let nm := expandFront g.outNbrs (vmKeys st.fvis) st.ffront
        let fvis2 := st.fvis ++ nm
        let meet := listInter (vmKeys fvis2) (vmKeys st.bvis)
        if meet.isEmpty then
          bfsLoop g chooser fuel
            { st with fvis := fvis2, ffront := vmKeys nm, fdist := st.fdist + 1 }
        else reconstructPaths fvis2 st.bvis meet
      | Dir.bwd =>
        let nm := expandFront g.inNbrs (vmKeys st.bvis) st.bfront
        let bvis2 := st.bvis ++ nm
        let meet := listInter (vmKeys st.fvis) (vmKeys bvis2)
        if meet.isEmpty then
          bfsLoop g chooser fuel
            { st with bvis := bvis2, bfront := vmKeys nm, bdist := st.bdist + 1 }
        else reconstructPaths st.fvis bvis2 meet

/-- Fuel that always suffices for the loop to reach a genuine exit: each
round either exits or raises the total generation count, which is bounded by
the number of edges per side. -/
def searchFuel (g : Graph) : Nat := 2 * g.edges.length + 3

/-- Initial search state (spec section 4.2 step 2). -/
def initState (s t : Nat) : BiState :=
  { fvis := [(s, [])], ffront := [s], fdist := 0,
    bvis := [(t, [])], bfront := [t], bdist := 0 }

/-- Modelled from the spec: the bidirectional BFS engine, parameterized by the
direction chooser so that the cost-based engine and the forced-direction
variants (spec section 8) are instances of one definition.  `source == target`
returns the single trivial path (spec section 4.2 step 1). -/
def bfsRun (g : Graph) (chooser : BiState → Dir) (s t : Nat) : List (List Nat) :=
  if s = t then [[s]] else bfsLoop g chooser (searchFuel g) (initState s t)

/-- Modelled from the spec: `breadth_first_search(source, target, database)`
imported by database.py line 9 but not under src - the engine with the
cost-based direction chooser. -/
def breadth_first_search (g : Graph) (s t : Nat) : List (List Nat) :=
  bfsRun g (costChooser g) s t

/-- Forced always-forward variant of the engine (spec section 8). -/
def breadth_first_search_fwd (g : Graph) (s t : Nat) : List (List Nat) :=
  bfsRun g (fun _ => Dir.fwd) s t

/-- Forced always-backward variant of the engine (spec section 8). -/
def breadth_first_search_bwd (g : Graph) (s t : Nat) : List (List Nat) :=
  bfsRun g (fun _ => Dir.bwd) s t

/-- Failure conditions of the engine entry point. -/
inductive EngineError where
  | invalidArgument
deriving DecidableEq

/-- Modelled from the spec: `validate_page_id` from sdow/helpers.py (imported
by database.py line 8 but not under src).  Spec section 7: a node ID not
present in the Adjacency Store fails fast with an InvalidArgument condition. -/
def validate_page_id (g : Graph) (pid : Nat) : Except EngineError Unit :=
  if g.nodes.contains pid then Except.ok () else Except.error EngineError.invalidArgument

/-- Embeds `compute_shortest_paths` (database.py lines 107-127): validate both
page IDs, then run the breadth-first search. -/
def compute_shortest_paths (g : Graph) (source target : Nat) :
    Except EngineError (List (List Nat)) :=
  match validate_page_id g source with
  | Except.error e => Except.error e
  | Except.ok _ =>
    match validate_page_id g target with
    | Except.error e => Except.error e
    | Except.ok _ => Except.ok (breadth_first_search g source target)

/-- A row of the `pages` table.  Titles are modelled as character lists. -/
structure PageRow where
  id : Nat
  title : List Char
  is_redirect : Bool
deriving DecidableEq

/-- A row of the `redirects` table. -/
structure RedirectRow where
  source_id : Nat
  target_id : Nat
deriving DecidableEq

/-- A row of the `links` table: per-page adjacency columns and the
precomputed degree counters. -/
structure LinksRow where
  id : Nat
  outgoing_links : List Nat
  incoming_links : List Nat
  outgoing_links_count : Nat
  incoming_links_count : Nat
deriving DecidableEq

/-- The SDOW database: the three tables read by database.py. -/
structure Db where
  pages : List PageRow
  redirects : List RedirectRow
  links : List LinksRow
deriving DecidableEq

/-- Which links column a helper call addresses. -/
inductive LinkCol where
  | outgoing
  | incoming
deriving DecidableEq

/-- The adjacency column named by a `LinkCol`. -/
def linksOf (r : LinksRow) : LinkCol → List Nat
  | LinkCol.outgoing => r.outgoing_links
  | LinkCol.incoming => r.incoming_links

/-- The degree-counter column named by a `LinkCol`. -/
def countOf (r : LinksRow) : LinkCol → Nat
  | LinkCol.outgoing => r.outgoing_links_count
  | LinkCol.incoming => r.incoming_links_count

/-- Failure of a SQL query at the database engine. -/
inductive SqlError where
  | malformedQuery
deriving DecidableEq

/-- Embeds the interpolation `str(tuple(page_ids))` of database.py lines 160
and 211: the Python tuple string, with a trailing comma for a 1-tuple. -/
def pyTupleStr (page_ids : List Nat) : List Char :=
  match page_ids with
  | [a] => '(' :: (Nat.toDigits 10 a ++ [',', ')'])
  | _ =>
    '(' :: ((page_ids.map (fun n => Nat.toDigits 10 n)).intersperse [',', ' ']).flatten ++ [')']

/-- Embeds the `.replace(',)', ')')` hack of database.py lines 160 and 211:
for a 1-tuple it drops the trailing comma, leaving the Python rendering of
`page_ids` as it is pasted into the `IN` clause of both helper queries. -/
def render_page_ids (page_ids : List Nat) : List Char :=
  match page_ids with
  | [a] => '(' :: (Nat.toDigits 10 a ++ [')'])
  | _ => pyTupleStr page_ids

/-- Embeds `fetch_links_count_helper` (database.py lines 151-167) with the
PostgreSQL semantics of its query
`SELECT SUM(col) FROM links WHERE id IN (...)`: an empty `IN ()` clause
(empty `page_ids`) is a malformed query and the execute call raises;
otherwise `SUM` yields NULL (`none`) when no row matches and the sum of the
counter column over the matching rows when at least one does. -/
def fetch_links_count_helper (db : Db) (page_ids : List Nat) (col : LinkCol) :
    Except SqlError (Option Nat) :=
  if page_ids.isEmpty then Except.error SqlError.malformedQuery
  else
    let rows := db.links.filter (fun r => page_ids.contains r.id)
    if rows.isEmpty then Except.ok none
    else Except.ok (some ((rows.map (fun r => countOf r col)).sum))

/-- Embeds `fetch_outgoing_links_count` (database.py lines 129-138). -/
def fetch_outgoing_links_count (db : Db) (page_ids : List Nat) : Except SqlError (Option Nat) :=
  fetch_links_count_helper db page_ids LinkCol.outgoing

/-- Embeds `fetch_incoming_links_count` (database.py lines 140-149). -/
def fetch_incoming_links_count (db : Db) (page_ids : List Nat) : Except SqlError (Option Nat) :=
  fetch_links_count_helper db page_ids LinkCol.incoming

/-- Embeds `fetch_links_helper` (database.py lines 195-218) with the
semantics of its query `SELECT id, col FROM links WHERE id IN (...)`: an
empty `IN ()` clause is a malformed query; otherwise the cursor holds one
`(id, links)` row for every `links`-table row whose id is among `page_ids`
(a requested id with no row in the table produces no row). -/
def fetch_links_helper (db : Db) (page_ids : List Nat) (col : LinkCol) :
    Except SqlError (List (Nat × List Nat)) :=
  if page_ids.isEmpty then Except.error SqlError.malformedQuery
  else
    Except.ok ((db.links.filter (fun r => page_ids.contains r.id)).map
      (fun r => (r.id, linksOf r col)))

/-- Embeds `fetch_outgoing_links` (database.py lines 169-180). -/
def fetch_outgoing_links (db : Db) (page_ids : List Nat) :
    Except SqlError (List (Nat × List Nat)) :=
  fetch_links_helper db page_ids LinkCol.outgoing

/-- Embeds `fetch_incoming_links` (database.py lines 182-193). -/
def fetch_incoming_links (db : Db) (page_ids : List Nat) :
    Except SqlError (List (Nat × List Nat)) :=
  fetch_links_helper db page_ids LinkCol.incoming

/-- Modelled from the spec: `get_sanitized_page_title` from sdow/helpers.py
(not under src); spaces of a user-supplied title become the underscores used
by the stored titles (the inverse of `fetch_page_title`, database.py line
105). -/
def get_sanitized_page_title (t : List Char) : List Char :=
  t.map (fun c => if c = ' ' then '_' else c)

/-- Modelled from the spec: `get_readable_page_title` from sdow/helpers.py
(not under src); underscores of a stored title become spaces, exactly as in
`fetch_page_title` (database.py line 105). -/
def get_readable_page_title (t : List Char) : List Char :=
  t.map (fun c => if c = '_' then ' ' else c)

/-- Character-wise lower-casing, the semantics of SQL `LOWER`. -/
def lowerChars (t : List Char) : List Char := t.map Char.toLower

/-- The Python exception raised by database.py reads. -/
inductive DbError where
  | valueError
deriving DecidableEq

/-- Embeds `fetch_page` (database.py lines 26-79): filter the `pages` table
case-insensitively on the sanitized title; prefer an exact-title non-redirect
match, then any non-redirect match; if every match is a redirect, follow the
first match through the `redirects` table joined back to `pages`; raise
ValueError when nothing matches or the redirect row is missing. -/
def fetch_page (db : Db) (page_title : List Char) : Except DbError (Nat × List Char × Bool) :=
  let sanitized := get_sanitized_page_title page_title
  match db.pages.filter (fun r => lowerChars r.title == lowerChars sanitized) with
  | [] => Except.error DbError.valueError
  | r0 :: rest =>
    let results := r0 :: rest
    match results.find? (fun r => r.title == sanitized && !r.is_redirect) with
    | some r => Except.ok (r.id, get_readable_page_title r.title, false)
    | none =>
      match results.find? (fun r => !r.is_redirect) with
      | some r => Except.ok (r.id, get_readable_page_title r.title, false)
      | none =>
        match ((db.redirects.filter (fun rd => rd.source_id == r0.id)).flatMap
            (fun rd => (db.pages.filter (fun p => p.id == rd.target_id)).map
              (fun p => (rd.target_id, p.title)))).head? with
        | none => Except.error DbError.valueError
        | some (tid, ttl) => Except.ok (tid, get_readable_page_title ttl, true)

/-- The 4xx condition raised by the route for an unknown title. -/
inductive RouteErr where
  | invalidRequest
deriving DecidableEq

/-- Embeds the title-resolution step of `shortest_paths_route` (server.py
lines 112-124): a ValueError from `fetch_page` is surfaced as an
InvalidRequest (4xx) condition. -/
def route_fetch_page (db : Db) (title : List Char) : Except RouteErr (Nat × List Char × Bool) :=
  match fetch_page db title with
  | Except.ok v => Except.ok v
  | Except.error _ => Except.error RouteErr.invalidRequest

/-- Embeds `insert_result` (database.py lines 220-240): computes the degree
and path counts of the search row and executes an INSERT; the Boolean
parameter models whether the write succeeds, a `false` models the analytics
writer raising (connection loss, schema drift, ...). -/
def insert_result (paths : List (List Nat)) (execOk : Bool) : Except Unit Unit :=
  let paths_count := paths.length
  let _degrees_count : Option Nat :=
    if paths_count = 0 then none else some ((paths.headD []).length - 1)
  if execOk then Except.ok () else Except.error ()

/-- The JSON response body of the paths route. -/
structure RouteResponse where
  sourcePageTitle : List Char
  targetPageTitle : List Char
  isSourceRedirected : Bool
  isTargetRedirected : Bool
  paths : List (List Nat)
  pages : List Nat
deriving DecidableEq

/-- Embeds the tail of `shortest_paths_route` (server.py lines 129-163): the
response is built from the already-computed paths (page enrichment data is
passed in as `pagesInfo`), then `insert_result` runs inside a try/except
whose handler only logs; the response is returned in either case. -/
def shortest_paths_route_tail (srcTitle tgtTitle : List Char) (srcRed tgtRed : Bool)
    (paths : List (List Nat)) (pagesInfo : List Nat) (execOk : Bool) : RouteResponse :=
  let response : RouteResponse :=
    if paths.length = 0 then
      { sourcePageTitle := srcTitle, targetPageTitle := tgtTitle,
        isSourceRedirected := srcRed, isTargetRedirected := tgtRed,
        paths := [], pages := [] }
    else
      { sourcePageTitle := srcTitle, targetPageTitle := tgtTitle,
        isSourceRedirected := srcRed, isTargetRedirected := tgtRed,
        paths := paths, pages := pagesInfo }
  match insert_result paths execOk with
  | Except.ok _ => response
  | Except.error _ => response

/-! Lemmas about walks. -/

theorem chainB_iff_chain' (E : Nat → Nat → Bool) :
    ∀ p : List Nat, chainB E p = true ↔ List.Chain' (fun a b => E a b = true) p
  | [] => by simp [chainB]
  | [a] => by simp [chainB]
  | a :: b :: r => by
    rw [chainB, List.chain'_cons, Bool.and_eq_true, chainB_iff_chain' E (b :: r)]

theorem IsWalk.ne_nil {E : Nat → Nat → Bool} {s t : Nat} {p : List Nat}
    (h : IsWalk E s t p) : p ≠ [] := by
  rcases h with ⟨h1, -, -⟩
  intro hnil
  rw [hnil] at h1
  simp at h1

theorem isWalk_singleton {E : Nat → Nat → Bool} {s t x : Nat} :
    IsWalk E s t [x] ↔ x = s ∧ t = x := by
  constructor
  · rintro ⟨h1, h2, -⟩
    simp at h1 h2
    exact ⟨h1, h2.symm⟩
  · rintro ⟨rfl, rfl⟩
    exact ⟨rfl, rfl, rfl⟩

theorem isWalk_len_one {E : Nat → Nat → Bool} {s t : Nat} {p : List Nat}
    (h : IsWalk E s t p) (hlen : p.length = 1) : p = [s] ∧ t = s := by
  match p, hlen with
  | [x], _ =>
    rcases isWalk_singleton.mp h with ⟨rfl, rfl⟩
    exact ⟨rfl, rfl⟩

theorem hasWalkLen_zero {E : Nat → Nat → Bool} {s t : Nat} :
    hasWalkLen E s t 0 ↔ t = s := by
  constructor
  · rintro ⟨p, hw, hlen⟩
    exact (isWalk_len_one hw hlen).2
  · rintro rfl
    exact ⟨[t], isWalk_singleton.mpr ⟨rfl, rfl⟩, rfl⟩

theorem isWalk_snoc_iff {E : Nat → Nat → Bool} {s t : Nat} {q : List Nat} {u : Nat}
    (hq : q ≠ []) (hu : q.getLast? = some u) :
    IsWalk E s t (q ++ [t]) ↔ (IsWalk E s u q ∧ E u t = true) := by
  have hhead : (q ++ [t]).head? = q.head? := List.head?_append_of_ne_nil _ hq
  have hlast : (q ++ [t]).getLast? = some t := List.getLast?_concat q
  constructor
  · rintro ⟨h1, h2, h3⟩
    rw [chainB_iff_chain', List.chain'_append] at h3
    rcases h3 with ⟨hc1, -, hc3⟩
    have hEut : E u t = true := hc3 u hu t rfl
    refine ⟨⟨?_, hu, ?_⟩, hEut⟩
    · rw [hhead] at h1; exact h1
    · rw [chainB_iff_chain']; exact hc1
  · rintro ⟨⟨h1, h2, h3⟩, hEut⟩
    refine ⟨?_, hlast, ?_⟩
    · rw [hhead]; exact h1
    · rw [chainB_iff_chain', List.chain'_append]
      rw [chainB_iff_chain'] at h3
      refine ⟨h3, List.chain'_singleton _, ?_⟩
      intro x hx y hy
      rw [h2] at hx
      simp at hx hy
      rw [← hx, ← hy]
      exact hEut

theorem hasWalkLen_succ {E : Nat → Nat → Bool} {s t : Nat} {n : Nat} :
    hasWalkLen E s t (n + 1) ↔ ∃ u, hasWalkLen E s u n ∧ E u t = true := by
  constructor
  · rintro ⟨p, hw, hlen⟩
    have hpne : p ≠ [] := hw.ne_nil
    have hdecomp : p.dropLast ++ [p.getLast hpne] = p := List.dropLast_append_getLast hpne
    have hlast : p.getLast hpne = t := by
      have := hw.2.1
      rw [List.getLast?_eq_getLast p hpne] at this
      exact Option.some_injective _ this
    have hqlen : p.dropLast.length = n + 1 := by
      rw [List.length_dropLast, hlen]
      omega
    have hqne : p.dropLast ≠ [] := by
      intro hnil
      rw [hnil] at hqlen
      simp at hqlen
    set q := p.dropLast with hq
    set u := q.getLast hqne with hudef
    have huq : q.getLast? = some u := List.getLast?_eq_getLast q hqne
    have hw2 : IsWalk E s t (q ++ [t]) := by
      rw [hlast] at hdecomp
      rw [hdecomp]
      exact hw
    rcases (isWalk_snoc_iff hqne huq).mp hw2 with ⟨hwq, hE⟩
    exact ⟨u, ⟨q, hwq, hqlen⟩, hE⟩
  · rintro ⟨u, ⟨q, hwq, hqlen⟩, hE⟩
    have hqne : q ≠ [] := hwq.ne_nil
    refine ⟨q ++ [t], (isWalk_snoc_iff hqne hwq.2.1).mpr ⟨hwq, hE⟩, ?_⟩
    simp [hqlen]

theorem isWalk_append {E : Nat → Nat → Bool} {s m t : Nat} {p1 p2 : List Nat}
    (h1 : IsWalk E s m p1) (h2 : IsWalk E m t p2) :
    IsWalk E s t (p1 ++ p2.tail) ∧ (p1 ++ p2.tail).length + 1 = p1.length + p2.length := by
  obtain ⟨h2h, h2l, h2c⟩ := h2
  obtain ⟨x, r, rfl⟩ : ∃ x r, p2 = x :: r := by
    cases p2 with
    | nil => simp at h2h
    | cons a b => exact ⟨a, b, rfl⟩
  have hxm : x = m := by simpa using h2h
  subst hxm
  rw [chainB_iff_chain', List.chain'_cons'] at h2c
  rcases h2c with ⟨hcross, hcr⟩
  constructor
  · refine ⟨?_, ?_, ?_⟩
    · rw [List.head?_append_of_ne_nil _ h1.ne_nil]
      exact h1.1
    · match r, h2l with
      | [], h2l =>
        simp only [List.tail_cons, List.append_nil]
        have hmt := h2l
        simp at hmt
        rw [← hmt]
        exact h1.2.1
      | y :: r', h2l =>
        simp only [List.tail_cons]
        rw [List.getLast?_append_of_ne_nil _ (by simp)]
        simpa using h2l
    · rw [chainB_iff_chain', List.chain'_append]
      refine ⟨by rw [← chainB_iff_chain']; exact h1.2.2, hcr, ?_⟩
      intro a ha y hy
      rw [h1.2.1] at ha
      simp at ha
      rw [← ha]
      exact hcross y hy
  · simp [Nat.add_comm, Nat.add_assoc, Nat.add_left_comm]

theorem isWalk_take {E : Nat → Nat → Bool} {s t : Nat} {p : List Nat}
    (h : IsWalk E s t p) {i : Nat} (hi : i < p.length) :
    IsWalk E s (p.get ⟨i, hi⟩) (p.take (i + 1)) := by
  refine ⟨?_, ?_, ?_⟩
  · match p, h.ne_nil with
    | x :: r, _ =>
      simp only [List.take_succ_cons, List.head?_cons]
      exact h.1
  · have hlen : (p.take (i + 1)).length = i + 1 := by
      rw [List.length_take]
      omega
    rw [List.getLast?_eq_getElem?, hlen]
    simp only [Nat.add_sub_cancel]
    rw [List.getElem?_take]
    simp [List.getElem?_eq_getElem hi]
  · rw [chainB_iff_chain']
    exact ((chainB_iff_chain' E p).mp h.2.2).take _

theorem isWalk_drop {E : Nat → Nat → Bool} {s t : Nat} {p : List Nat}
    (h : IsWalk E s t p) {i : Nat} (hi : i < p.length) :
    IsWalk E (p.get ⟨i, hi⟩) t (p.drop i) := by
  refine ⟨?_, ?_, ?_⟩
  · rw [List.head?_drop]
    simp [List.getElem?_eq_getElem hi]
  · have hlen : (p.drop i).length = p.length - i := List.length_drop ..
    rw [List.getLast?_eq_getElem?, hlen, List.getElem?_drop]
    have : i + (p.length - i - 1) = p.length - 1 := by omega
    rw [this]
    have h21 := h.2.1
    rw [List.getLast?_eq_getElem?] at h21
    exact h21
  · rw [chainB_iff_chain']
    exact ((chainB_iff_chain' E p).mp h.2.2).drop _

theorem take_succ_append_drop_tail {p : List Nat} {i : Nat} (hi : i < p.length) :
    p.take (i + 1) ++ (p.drop i).tail = p := by
  have hdrop : p.drop i = p.get ⟨i, hi⟩ :: p.drop (i + 1) := List.drop_eq_getElem_cons hi
  rw [hdrop]
  simp only [List.tail_cons]
  exact List.take_append_drop (i + 1) p

theorem isWalk_flip_iff {E : Nat → Nat → Bool} {t v : Nat} {p : List Nat} :
    IsWalk (fun a b => E b a) t v p ↔ IsWalk E v t p.reverse := by
  have hchain : ∀ q : List Nat, chainB (fun a b => E b a) q = true ↔ chainB E q.reverse = true := by
    intro q
    rw [chainB_iff_chain', chainB_iff_chain', List.chain'_reverse]
    rfl
  constructor
  · rintro ⟨h1, h2, h3⟩
    exact ⟨by rw [List.head?_reverse]; exact h2, by rw [List.getLast?_reverse]; exact h1,
      (hchain p).mp h3⟩
  · rintro ⟨h1, h2, h3⟩
    rw [List.head?_reverse] at h1
    rw [List.getLast?_reverse] at h2
    refine ⟨h2, h1, (hchain p).mpr ?_⟩
    exact h3

theorem hasWalkLen_flip_iff {E : Nat → Nat → Bool} {t v : Nat} {n : Nat} :
    hasWalkLen (fun a b => E b a) t v n ↔ hasWalkLen E v t n := by
  constructor
  · rintro ⟨p, hw, hlen⟩
    exact ⟨p.reverse, isWalk_flip_iff.mp hw, by simp [hlen]⟩
  · rintro ⟨p, hw, hlen⟩
    refine ⟨p.reverse, ?_, by simp [hlen]⟩
    rw [isWalk_flip_iff, List.reverse_reverse]
    exact hw

theorem exists_distIs {E : Nat → Nat → Bool} {s t : Nat}
    (h : ∃ n, hasWalkLen E s t n) : ∃ d, distIs E s t d := by
  rcases h with ⟨n, hn⟩
  induction n using Nat.strong_induction_on with
  | _ n ih =>
    by_cases hlt : ∃ j, j < n ∧ hasWalkLen E s t j
    · rcases hlt with ⟨j, hj, hwj⟩
      exact ih j hj hwj
    · push_neg at hlt
      refine ⟨n, hn, ?_⟩
      intro j hwj
      by_contra hcon
      exact absurd hwj (hlt j (by omega))

/-! Lemmas about visited maps. -/

theorem vmKeys_append (m1 m2 : VisitMap) : vmKeys (m1 ++ m2) = vmKeys m1 ++ vmKeys m2 := by
  simp [vmKeys]

theorem vmKeys_length (m : VisitMap) : (vmKeys m).length = m.length := by
  simp [vmKeys]

theorem vmLookup_eq_some_of_mem_keys {m : VisitMap} {v : Nat} (h : v ∈ vmKeys m) :
    ∃ ps, vmLookup m v = some ps := by
  induction m with
  | nil => simp [vmKeys] at h
  | cons hd tl ih =>
    rcases hd with ⟨w, ps⟩
    by_cases hw : w = v
    · exact ⟨ps, by simp [vmLookup, hw]⟩
    · have hmem : v ∈ vmKeys tl := by
        simp [vmKeys] at h ⊢
        rcases h with h | h
        · exact absurd h.symm hw
        · exact h
      rcases ih hmem with ⟨qs, hqs⟩
      exact ⟨qs, by simp [vmLookup, hw, hqs]⟩

theorem mem_keys_of_vmLookup_eq_some {m : VisitMap} {v : Nat} {ps : List Nat}
    (h : vmLookup m v = some ps) : v ∈ vmKeys m := by
  induction m with
  | nil => simp [vmLookup] at h
  | cons hd tl ih =>
    rcases hd with ⟨w, qs⟩
    by_cases hw : w = v
    · simp [vmKeys, hw]
    · rw [vmLookup, if_neg hw] at h
      have := ih h
      simp [vmKeys] at this ⊢
      exact Or.inr this

theorem vmLookup_append_left {m1 m2 : VisitMap} {v : Nat} (h : v ∈ vmKeys m1) :
    vmLookup (m1 ++ m2) v = vmLookup m1 v := by
  induction m1 with
  | nil => simp [vmKeys] at h
  | cons hd tl ih =>
    rcases hd with ⟨w, ps⟩
    by_cases hw : w = v
    · simp [vmLookup, hw]
    · have hmem : v ∈ vmKeys tl := by
        simp [vmKeys] at h ⊢
        rcases h with h | h
        · exact absurd h.symm hw
        · exact h
      simp only [List.cons_append, vmLookup, if_neg hw]
      exact ih hmem

theorem vmLookup_append_right {m1 m2 : VisitMap} {v : Nat} (h : ¬ v ∈ vmKeys m1) :
    vmLookup (m1 ++ m2) v = vmLookup m2 v := by
  induction m1 with
  | nil => simp
  | cons hd tl ih =>
    rcases hd with ⟨w, ps⟩
    have hw : w ≠ v := by
      intro hcon
      exact h (by simp [vmKeys, hcon])
    have hmem : ¬ v ∈ vmKeys tl := by
      intro hcon
      exact h (by simp [vmKeys] at hcon ⊢; exact Or.inr hcon)
    simp only [List.cons_append, vmLookup, if_neg hw]
    exact ih hmem

theorem vmLookup_map_self {l : List Nat} {f : Nat → List Nat} {x : Nat} :
    vmLookup (l.map (fun v => (v, f v))) x =
      if x ∈ l then some (f x) else none := by
  induction l with
  | nil => simp [vmLookup]
  | cons hd tl ih =>
    by_cases hx : hd = x
    · simp [vmLookup, hx]
    · rw [List.map_cons, vmLookup, if_neg hx, ih]
      by_cases hmem : x ∈ tl
      · rw [if_pos hmem, if_pos (List.mem_cons_of_mem hd hmem)]
      · rw [if_neg hmem, if_neg ?_]
        intro hcon
        rcases List.mem_cons.mp hcon with h | h
        · exact hx h.symm
        · exact hmem h

/-! Lemmas about one expansion round. -/

theorem vmKeys_expandFront (nbrs : Nat → List Nat) (visKeys front : List Nat) :
    vmKeys (expandFront nbrs visKeys front) =
      (front.flatMap nbrs).dedup.filter (fun v => !visKeys.contains v) := by
  simp only [expandFront, vmKeys, List.map_map]
  have h : (Prod.fst ∘ fun v => (v, front.filter (fun u => (nbrs u).contains v))) = id := rfl
  rw [h, List.map_id]

theorem mem_keys_expandFront {nbrs : Nat → List Nat} {visKeys front : List Nat} {v : Nat} :
    v ∈ vmKeys (expandFront nbrs visKeys front) ↔
      (∃ u ∈ front, v ∈ nbrs u) ∧ ¬ v ∈ visKeys := by
  rw [vmKeys_expandFront]
  simp [List.mem_filter, List.mem_dedup, List.mem_flatMap]

theorem nodup_keys_expandFront (nbrs : Nat → List Nat) (visKeys front : List Nat) :
    (vmKeys (expandFront nbrs visKeys front)).Nodup := by
  rw [vmKeys_expandFront]
  exact (List.nodup_dedup _).filter _

theorem vmLookup_expandFront {nbrs : Nat → List Nat} {visKeys front : List Nat} {v : Nat}
    (h : v ∈ vmKeys (expandFront nbrs visKeys front)) :
    vmLookup (expandFront nbrs visKeys front) v =
      some (front.filter (fun u => (nbrs u).contains v)) := by
  rw [vmKeys_expandFront] at h
  rw [expandFront, vmLookup_map_self, if_pos h]

theorem expandFront_nil_front (nbrs : Nat → List Nat) (visKeys : List Nat) :
    expandFront nbrs visKeys [] = [] := by
  simp [expandFront]

/-! Layer theory for one search direction. -/

theorem contains_true_iff {α : Type} [BEq α] [LawfulBEq α] (l : List α) (a : α) :
    l.contains a = true ↔ a ∈ l := by
  simp

theorem visFront_succ (nbrs : Nat → List Nat) (s : Nat) (k : Nat) :
    visFront nbrs s (k + 1) =
      ((visFront nbrs s k).1 ++
         expandFront nbrs (vmKeys (visFront nbrs s k).1) (visFront nbrs s k).2,
       vmKeys (expandFront nbrs (vmKeys (visFront nbrs s k).1) (visFront nbrs s k).2)) := rfl

theorem front_subset_keys (nbrs : Nat → List Nat) (s : Nat) :
    ∀ k, ∀ v ∈ (visFront nbrs s k).2, v ∈ vmKeys (visFront nbrs s k).1
  | 0, v, hv => by
    simpa [visFront, vmKeys] using hv
  | k + 1, v, hv => by
    rw [visFront_succ, vmKeys_append]
    rw [visFront_succ] at hv
    exact List.mem_append_right _ hv

theorem visFront_extends (nbrs : Nat → List Nat) (s : Nat) {j : Nat} :
    ∀ {k : Nat}, j ≤ k → ∃ rest, (visFront nbrs s k).1 = (visFront nbrs s j).1 ++ rest := by
  intro k
  induction k with
  | zero =>
    intro hj
    have : j = 0 := Nat.le_zero.mp hj
    subst this
    exact ⟨[], by simp⟩
  | succ k ih =>
    intro hj
    rcases Nat.lt_or_ge j (k + 1) with hlt | hge
    · rcases ih (Nat.lt_succ_iff.mp hlt) with ⟨rest, hrest⟩
      refine ⟨rest ++ expandFront nbrs (vmKeys (visFront nbrs s k).1) (visFront nbrs s k).2, ?_⟩
      rw [visFront_succ, hrest, List.append_assoc]
    · have : j = k + 1 := Nat.le_antisymm hj hge
      subst this
      exact ⟨[], by simp⟩

theorem keys_mono (nbrs : Nat → List Nat) (s : Nat) {j k : Nat} (hjk : j ≤ k) {v : Nat}
    (hv : v ∈ vmKeys (visFront nbrs s j).1) : v ∈ vmKeys (visFront nbrs s k).1 := by
  rcases visFront_extends nbrs s hjk with ⟨rest, hrest⟩
  rw [hrest, vmKeys_append]
  exact List.mem_append_left _ hv

theorem visFront_spec (nbrs : Nat → List Nat) (s : Nat) (E : Nat → Nat → Bool)
    (hE : ∀ u v, v ∈ nbrs u ↔ E u v = true) :
    ∀ k : Nat,
      (∀ v, v ∈ vmKeys (visFront nbrs s k).1 ↔ ∃ j, j ≤ k ∧ hasWalkLen E s v j) ∧
      (∀ v, v ∈ (visFront nbrs s k).2 ↔
        (hasWalkLen E s v k ∧ ∀ j, j < k → ¬ hasWalkLen E s v j)) := by
  intro k
  induction k with
  | zero =>
    constructor
    · intro v
      simp only [visFront, vmKeys, List.map_cons, List.map_nil, List.mem_singleton]
      constructor
      · rintro rfl
        exact ⟨0, Nat.le_refl 0, hasWalkLen_zero.mpr rfl⟩
      · rintro ⟨j, hj, hwj⟩
        have : j = 0 := Nat.le_zero.mp hj
        subst this
        exact hasWalkLen_zero.mp hwj
    · intro v
      simp only [visFront, List.mem_singleton]
      constructor
      · rintro rfl
        exact ⟨hasWalkLen_zero.mpr rfl, by omega⟩
      · rintro ⟨hw0, -⟩
        exact hasWalkLen_zero.mp hw0
  | succ k ih =>
    rcases ih with ⟨ihP, ihQ⟩
    have hQ : ∀ v, v ∈ (visFront nbrs s (k + 1)).2 ↔
        (hasWalkLen E s v (k + 1) ∧ ∀ j, j < k + 1 → ¬ hasWalkLen E s v j) := by
      intro v
      rw [visFront_succ]
      simp only [mem_keys_expandFront]
      constructor
      · rintro ⟨⟨u, hu, hnb⟩, hnew⟩
        rcases (ihQ u).mp hu with ⟨huk, humin⟩
        refine ⟨hasWalkLen_succ.mpr ⟨u, huk, (hE u v).mp hnb⟩, ?_⟩
        intro j hj hwj
        exact hnew ((ihP v).mpr ⟨j, by omega, hwj⟩)
      · rintro ⟨hvk1, hvmin⟩
        rcases hasWalkLen_succ.mp hvk1 with ⟨u, huk, hEuv⟩
        have humin : ∀ j, j < k → ¬ hasWalkLen E s u j := by
          intro j hj hwj
          exact hvmin (j + 1) (by omega) (hasWalkLen_succ.mpr ⟨u, hwj, hEuv⟩)
        refine ⟨⟨u, (ihQ u).mpr ⟨huk, humin⟩, (hE u v).mpr hEuv⟩, ?_⟩
        intro hcon
        rcases (ihP v).mp hcon with ⟨j, hjk, hwj⟩
        exact hvmin j (by omega) hwj
    refine ⟨?_, hQ⟩
    intro v
    have hkeys : v ∈ vmKeys (visFront nbrs s (k + 1)).1 ↔
        v ∈ vmKeys (visFront nbrs s k).1 ∨ v ∈ (visFront nbrs s (k + 1)).2 := by
      rw [visFront_succ]
      rw [vmKeys_append]
      rw [List.mem_append]
    rw [hkeys]
    constructor
    · rintro (h | h)
      · rcases (ihP v).mp h with ⟨j, hj, hwj⟩
        exact ⟨j, by omega, hwj⟩
      · rcases (hQ v).mp h with ⟨hw, -⟩
        exact ⟨k + 1, Nat.le_refl _, hw⟩
    · rintro ⟨j, hj, hwj⟩
      by_cases hex : ∃ j', j' ≤ k ∧ hasWalkLen E s v j'
      · exact Or.inl ((ihP v).mpr hex)
      · push_neg at hex
        have hj1 : j = k + 1 := by
          rcases Nat.lt_or_ge j (k + 1) with hlt | hge
          · exact absurd hwj (hex j (by omega))
          · omega
        subst hj1
        refine Or.inr ((hQ v).mpr ⟨hwj, ?_⟩)
        intro j' hj' hwj'
        exact hex j' (by omega) hwj'

theorem visFront_keys_nodup (nbrs : Nat → List Nat) (s : Nat) :
    ∀ k, (vmKeys (visFront nbrs s k).1).Nodup
  | 0 => by simp [visFront, vmKeys]
  | k + 1 => by
    rw [visFront_succ, vmKeys_append]
    refine (visFront_keys_nodup nbrs s k).append (nodup_keys_expandFront ..) ?_
    intro v hv hv2
    exact (mem_keys_expandFront.mp hv2).2 hv

theorem vmLookup_visFront_root (nbrs : Nat → List Nat) (s : Nat) (k : Nat) :
    vmLookup (visFront nbrs s k).1 s = some [] := by
  rcases visFront_extends nbrs s (Nat.zero_le k) with ⟨rest, hrest⟩
  rw [hrest]
  simp [visFront, vmLookup]

theorem vmLookup_visFront_front (nbrs : Nat → List Nat) (s : Nat) {j k v : Nat}
    (hv : v ∈ (visFront nbrs s (j + 1)).2) (hjk : j + 1 ≤ k) :
    vmLookup (visFront nbrs s k).1 v =
      some ((visFront nbrs s j).2.filter (fun u => (nbrs u).contains v)) := by
  rcases visFront_extends nbrs s hjk with ⟨rest, hrest⟩
  rw [hrest, vmLookup_append_left (front_subset_keys nbrs s (j + 1) v hv)]
  rw [visFront_succ]
  rw [visFront_succ] at hv
  have hnotold : ¬ v ∈ vmKeys (visFront nbrs s j).1 := (mem_keys_expandFront.mp hv).2
  rw [vmLookup_append_right hnotold]
  exact vmLookup_expandFront hv

theorem front_parents_ne_nil (nbrs : Nat → List Nat) (s : Nat) {j v : Nat}
    (hv : v ∈ (visFront nbrs s (j + 1)).2) :
    (visFront nbrs s j).2.filter (fun u => (nbrs u).contains v) ≠ [] := by
  rw [visFront_succ] at hv
  rcases (mem_keys_expandFront.mp hv).1 with ⟨u, hu, hnb⟩
  have : u ∈ (visFront nbrs s j).2.filter (fun u => (nbrs u).contains v) :=
    List.mem_filter.mpr ⟨hu, (contains_true_iff _ _).mpr hnb⟩
  exact List.ne_nil_of_mem this

theorem front_succ_ne_root (nbrs : Nat → List Nat) (s : Nat) {j v : Nat}
    (hv : v ∈ (visFront nbrs s (j + 1)).2) : v ≠ s := by
  rw [visFront_succ] at hv
  intro hcon
  subst hcon
  refine (mem_keys_expandFront.mp hv).2 ?_
  refine keys_mono nbrs v (Nat.zero_le j) ?_
  simp [visFront, vmKeys]

theorem front_nonempty_chain (nbrs : Nat → List Nat) (s : Nat) {k : Nat}
    (h : (visFront nbrs s (k + 1)).2 ≠ []) : (visFront nbrs s k).2 ≠ [] := by
  intro hcon
  apply h
  rw [visFront_succ, hcon, expandFront_nil_front]
  rfl

theorem length_vis_of_front_ne (nbrs : Nat → List Nat) (s : Nat) :
    ∀ k, (visFront nbrs s k).2 ≠ [] → k + 1 ≤ (visFront nbrs s k).1.length
  | 0, _ => by simp [visFront]
  | k + 1, h => by
    have hk := length_vis_of_front_ne nbrs s k (front_nonempty_chain nbrs s h)
    rw [visFront_succ] at h ⊢
    simp only [List.length_append]
    have hnm : 1 ≤ (expandFront nbrs (vmKeys (visFront nbrs s k).1) (visFront nbrs s k).2).length := by
      rcases List.exists_mem_of_ne_nil _ h with ⟨v, hv⟩
      have : (expandFront nbrs (vmKeys (visFront nbrs s k).1) (visFront nbrs s k).2) ≠ [] := by
        intro hcon
        rw [hcon] at hv
        simp [vmKeys] at hv
      exact List.length_pos.mpr this
    omega

theorem keys_subset_support (nbrs : Nat → List Nat) (s : Nat) (T : List Nat)
    (hT : ∀ u v, v ∈ nbrs u → v ∈ T) :
    ∀ k, ∀ v ∈ vmKeys (visFront nbrs s k).1, v ∈ s :: T
  | 0, v, hv => by
    simp [visFront, vmKeys] at hv
    simp [hv]
  | k + 1, v, hv => by
    rw [visFront_succ, vmKeys_append, List.mem_append] at hv
    rcases hv with hv | hv
    · exact keys_subset_support nbrs s T hT k v hv
    · rcases (mem_keys_expandFront.mp hv).1 with ⟨u, -, hnb⟩
      exact List.mem_cons_of_mem _ (hT u v hnb)

theorem front_ne_nil_bound (nbrs : Nat → List Nat) (s : Nat) (T : List Nat)
    (hT : ∀ u v, v ∈ nbrs u → v ∈ T) (k : Nat)
    (h : (visFront nbrs s k).2 ≠ []) : k ≤ T.length := by
  have h1 : k + 1 ≤ (visFront nbrs s k).1.length := length_vis_of_front_ne nbrs s k h
  have h2 : (vmKeys (visFront nbrs s k).1).length = (visFront nbrs s k).1.length :=
    vmKeys_length _
  have hnd := visFront_keys_nodup nbrs s k
  have hsub := keys_subset_support nbrs s T hT k
  have hcard : (vmKeys (visFront nbrs s k).1).length ≤ (s :: T).length := by
    calc (vmKeys (visFront nbrs s k).1).length
        = (vmKeys (visFront nbrs s k).1).toFinset.card := (List.toFinset_card_of_nodup hnd).symm
      _ ≤ (s :: T).toFinset.card := by
          apply Finset.card_le_card
          intro a ha
          rw [List.mem_toFinset] at ha ⊢
          exact hsub a ha
      _ ≤ (s :: T).length := List.toFinset_card_le _
  simp only [List.length_cons] at hcard
  omega

/-! Correctness of parent-chain enumeration. -/

theorem enumPaths_spec (nbrs : Nat → List Nat) (s : Nat) (E : Nat → Nat → Bool)
    (hE : ∀ u v, v ∈ nbrs u ↔ E u v = true) (f : Nat) :
    ∀ j, j ≤ f → ∀ v, v ∈ (visFront nbrs s j).2 →
      ∀ fuel, j + 1 ≤ fuel → ∀ p,
        (p ∈ enumPaths (visFront nbrs s f).1 fuel v ↔ (IsWalk E s v p ∧ p.length = j + 1)) := by
  intro j
  induction j with
  | zero =>
    intro hjf v hv fuel hfuel p
    have hvs : v = s := by
      simpa [visFront] using hv
    subst hvs
    match fuel, hfuel with
    | fuel' + 1, _ =>
      rw [enumPaths, vmLookup_visFront_root]
      simp only [List.isEmpty_nil, if_true]
      constructor
      · intro hp
        have hps : p = [v] := by simpa using hp
        subst hps
        exact ⟨isWalk_singleton.mpr ⟨rfl, rfl⟩, rfl⟩
      · rintro ⟨hw, hlen⟩
        rcases isWalk_len_one hw hlen with ⟨rfl, -⟩
        simp
  | succ j ih =>
    intro hjf v hv fuel hfuel p
    have hmin := (visFront_spec nbrs s E hE (j + 1)).2 v |>.mp hv
    have hlook := vmLookup_visFront_front nbrs s hv hjf
    have hpsne := front_parents_ne_nil nbrs s hv
    match fuel, hfuel with
    | fuel' + 1, hfuel =>
      have hempty : ((visFront nbrs s j).2.filter (fun u => (nbrs u).contains v)).isEmpty = false := by
        rw [List.isEmpty_eq_false_iff_exists_mem]
        exact List.exists_mem_of_ne_nil _ hpsne
      simp only [enumPaths, hlook, hempty, Bool.false_eq_true, if_false, List.mem_flatMap,
        List.mem_map]
      have hfj : j ≤ f := by omega
      have hfuel' : j + 1 ≤ fuel' := by omega
      constructor
      · rintro ⟨u, hu, q, hq, rfl⟩
        rcases List.mem_filter.mp hu with ⟨hufr, hucont⟩
        have hedge : E u v = true := (hE u v).mp ((contains_true_iff _ _).mp hucont)
        rcases (ih hfj u hufr fuel' hfuel' q).mp hq with ⟨hwq, hqlen⟩
        refine ⟨(isWalk_snoc_iff hwq.ne_nil hwq.2.1).mpr ⟨hwq, hedge⟩, ?_⟩
        simp [hqlen]
      · rintro ⟨hw, hlen⟩
        have hpne : p ≠ [] := hw.ne_nil
        have hdecomp : p.dropLast ++ [p.getLast hpne] = p := List.dropLast_append_getLast hpne
        have hlastv : p.getLast hpne = v := by
          have h21 := hw.2.1
          rw [List.getLast?_eq_getLast p hpne] at h21
          exact Option.some_injective _ h21
        have hqlen : p.dropLast.length = j + 1 := by
          rw [List.length_dropLast, hlen]
          omega
        have hqne : p.dropLast ≠ [] := by
          intro hnil
          rw [hnil] at hqlen
          simp at hqlen
        have huq : p.dropLast.getLast? = some (p.dropLast.getLast hqne) :=
          List.getLast?_eq_getLast _ hqne
        have hw2 : IsWalk E s v (p.dropLast ++ [v]) := by
          rw [hlastv] at hdecomp
          rw [hdecomp]
          exact hw
        rcases (isWalk_snoc_iff hqne huq).mp hw2 with ⟨hwq, hedge⟩
        set u := p.dropLast.getLast hqne with hu
        have huwalk : hasWalkLen E s u j := ⟨p.dropLast, hwq, hqlen⟩
        have humin : ∀ i, i < j → ¬ hasWalkLen E s u i := by
          intro i hi hwi
          exact hmin.2 (i + 1) (by omega) (hasWalkLen_succ.mpr ⟨u, hwi, hedge⟩)
        have hufr : u ∈ (visFront nbrs s j).2 :=
          ((visFront_spec nbrs s E hE j).2 u).mpr ⟨huwalk, humin⟩
        refine ⟨u, List.mem_filter.mpr ⟨hufr, (contains_true_iff _ _).mpr ((hE u v).mpr hedge)⟩,
          p.dropLast, (ih hfj u hufr fuel' hfuel' p.dropLast).mpr ⟨hwq, hqlen⟩, ?_⟩
        rw [hlastv] at hdecomp
        exact hdecomp

/-! Instantiation of the direction machinery for a graph. -/

theorem mem_outNbrs {g : Graph} {u v : Nat} : v ∈ g.outNbrs u ↔ g.edgeB u v = true := by
  simp only [Graph.outNbrs, Graph.edgeB, List.mem_map, List.mem_filter, beq_iff_eq,
    contains_true_iff]
  constructor
  · rintro ⟨⟨a, b⟩, ⟨hmem, ha⟩, hb⟩
    simp only at ha hb
    rw [← ha, ← hb]
    exact hmem
  · intro h
    exact ⟨(u, v), ⟨h, rfl⟩, rfl⟩

theorem mem_inNbrs {g : Graph} {u v : Nat} : v ∈ g.inNbrs u ↔ g.edgeB v u = true := by
  simp only [Graph.inNbrs, Graph.edgeB, List.mem_map, List.mem_filter, beq_iff_eq,
    contains_true_iff]
  constructor
  · rintro ⟨⟨a, b⟩, ⟨hmem, hb⟩, ha⟩
    simp only at ha hb
    rw [← ha, ← hb]
    exact hmem
  · intro h
    exact ⟨(v, u), ⟨h, rfl⟩, rfl⟩

/-! The bidirectional meeting argument. -/

theorem mem_listInter {a b : List Nat} {v : Nat} :
    v ∈ listInter a b ↔ v ∈ a ∧ v ∈ b := by
  simp [listInter, List.mem_filter]

theorem listInter_eq_nil_iff {a b : List Nat} :
    listInter a b = [] ↔ ∀ v, v ∈ a → ¬ v ∈ b := by
  constructor
  · intro h v hva hvb
    have : v ∈ listInter a b := mem_listInter.mpr ⟨hva, hvb⟩
    rw [h] at this
    simp at this
  · intro h
    rcases hne : listInter a b with _ | ⟨v, rest⟩
    · rfl
    · have : v ∈ listInter a b := by rw [hne]; exact List.mem_cons_self ..
      rcases mem_listInter.mp this with ⟨hva, hvb⟩
      exact absurd hvb (h v hva)

theorem walklen_trans {E : Nat → Nat → Bool} {s m t : Nat} {jf jb : Nat}
    (h1 : hasWalkLen E s m jf) (h2 : hasWalkLen E m t jb) :
    hasWalkLen E s t (jf + jb) := by
  rcases h1 with ⟨p1, hw1, hl1⟩
  rcases h2 with ⟨p2, hw2, hl2⟩
  rcases isWalk_append hw1 hw2 with ⟨hw, hlen⟩
  refine ⟨p1 ++ p2.tail, hw, ?_⟩
  omega

theorem no_meet_lower_bound (g : Graph) (s t : Nat) (fp bp : Nat)
    (hdisj : ∀ v, v ∈ vmKeys (visFront g.outNbrs s fp).1 →
      v ∈ vmKeys (visFront g.inNbrs t bp).1 → False)
    {L : Nat} (hL : hasWalkLen g.edgeB s t L) : fp + bp + 1 ≤ L := by
  by_contra hcon
  push_neg at hcon
  have hLle : L ≤ fp + bp := by omega
  rcases hL with ⟨p, hw, hlen⟩
  have hi : min L fp < p.length := by omega
  set i := min L fp with hidef
  set m := p.get ⟨i, hi⟩ with hm
  have hp1 : IsWalk g.edgeB s m (p.take (i + 1)) := isWalk_take hw hi
  have hp1len : (p.take (i + 1)).length = i + 1 := by
    rw [List.length_take]
    omega
  have hmF : m ∈ vmKeys (visFront g.outNbrs s fp).1 := by
    refine ((visFront_spec g.outNbrs s g.edgeB (fun u v => mem_outNbrs) fp).1 m).mpr ?_
    exact ⟨i, by omega, ⟨p.take (i + 1), hp1, hp1len⟩⟩
  have hp2 : IsWalk g.edgeB m t (p.drop i) := isWalk_drop hw hi
  have hp2len : (p.drop i).length = (L - i) + 1 := by
    rw [List.length_drop]
    omega
  have hmB : m ∈ vmKeys (visFront g.inNbrs t bp).1 := by
    refine ((visFront_spec g.inNbrs t (fun a b => g.edgeB b a) (fun u v => mem_inNbrs) bp).1 m).mpr ?_
    refine ⟨L - i, by omega, ?_⟩
    rw [hasWalkLen_flip_iff]
    exact ⟨p.drop i, hp2, hp2len⟩
  exact hdisj m hmF hmB

theorem meet_upper_bound (g : Graph) (s t : Nat) (f b : Nat) {m : Nat}
    (hmF : m ∈ vmKeys (visFront g.outNbrs s f).1)
    (hmB : m ∈ vmKeys (visFront g.inNbrs t b).1) :
    ∃ jf jb, jf ≤ f ∧ jb ≤ b ∧ hasWalkLen g.edgeB s m jf ∧ hasWalkLen g.edgeB m t jb := by
  rcases ((visFront_spec g.outNbrs s g.edgeB (fun u v => mem_outNbrs) f).1 m).mp hmF with
    ⟨jf, hjf, hwf⟩
  rcases ((visFront_spec g.inNbrs t (fun a b => g.edgeB b a) (fun u v => mem_inNbrs) b).1 m).mp hmB
    with ⟨jb, hjb, hwb⟩
  rw [hasWalkLen_flip_iff] at hwb
  exact ⟨jf, jb, hjf, hjb, hwf, hwb⟩

theorem stop_correct (g : Graph) (s t : Nat) {f b fp bp : Nat}
    (hfp : fp ≤ f) (hbp : bp ≤ b) (hsum : fp + bp + 1 = f + b)
    (hdisj : ∀ v, v ∈ vmKeys (visFront g.outNbrs s fp).1 →
      v ∈ vmKeys (visFront g.inNbrs t bp).1 → False)
    (hmeet : listInter (vmKeys (visFront g.outNbrs s f).1)
        (vmKeys (visFront g.inNbrs t b).1) ≠ []) :
    ∀ p, p ∈ reconstructPaths (visFront g.outNbrs s f).1 (visFront g.inNbrs t b).1
        (listInter (vmKeys (visFront g.outNbrs s f).1) (vmKeys (visFront g.inNbrs t b).1)) ↔
      IsShortestWalk g.edgeB s t p := by
  have hlow : ∀ L, hasWalkLen g.edgeB s t L → f + b ≤ L := by
    intro L hL
    have := no_meet_lower_bound g s t fp bp hdisj hL
    omega
  have hchar : ∀ m, m ∈ listInter (vmKeys (visFront g.outNbrs s f).1)
      (vmKeys (visFront g.inNbrs t b).1) →
      m ∈ (visFront g.outNbrs s f).2 ∧ m ∈ (visFront g.inNbrs t b).2 := by
    intro m hm
    rcases mem_listInter.mp hm with ⟨hmF, hmB⟩
    rcases meet_upper_bound g s t f b hmF hmB with ⟨jf, jb, hjf, hjb, hwf, hwb⟩
    have hts : f + b ≤ jf + jb := hlow _ (walklen_trans hwf hwb)
    have hjfeq : jf = f := by omega
    have hjbeq : jb = b := by omega
    rw [hjfeq] at hwf
    rw [hjbeq] at hwb
    constructor
    · refine ((visFront_spec g.outNbrs s g.edgeB (fun u v => mem_outNbrs) f).2 m).mpr
        ⟨hwf, ?_⟩
      intro i hi hwi
      have := hlow _ (walklen_trans hwi hwb)
      omega
    · refine ((visFront_spec g.inNbrs t (fun a b => g.edgeB b a) (fun u v => mem_inNbrs) b).2
        m).mpr ⟨hasWalkLen_flip_iff.mpr hwb, ?_⟩
      intro i hi hwi
      rw [hasWalkLen_flip_iff] at hwi
      have := hlow _ (walklen_trans hwf hwi)
      omega
  have hd : hasWalkLen g.edgeB s t (f + b) := by
    rcases List.exists_mem_of_ne_nil _ hmeet with ⟨m0, hm0⟩
    rcases mem_listInter.mp hm0 with ⟨hmF, hmB⟩
    rcases meet_upper_bound g s t f b hmF hmB with ⟨jf, jb, hjf, hjb, hwf, hwb⟩
    have hts : f + b ≤ jf + jb := hlow _ (walklen_trans hwf hwb)
    have : jf + jb = f + b := by omega
    rw [← this]
    exact walklen_trans hwf hwb
  intro p
  simp only [reconstructPaths, List.mem_dedup, List.mem_flatMap, List.mem_map]
  constructor
  · rintro ⟨m, hm, pf, hpf, pb, hpb, rfl⟩
    rcases hchar m hm with ⟨hmf, hmb⟩
    have hlenF : f + 1 ≤ (visFront g.outNbrs s f).1.length :=
      length_vis_of_front_ne g.outNbrs s f (List.ne_nil_of_mem hmf)
    have hlenB : b + 1 ≤ (visFront g.inNbrs t b).1.length :=
      length_vis_of_front_ne g.inNbrs t b (List.ne_nil_of_mem hmb)
    rcases (enumPaths_spec g.outNbrs s g.edgeB (fun u v => mem_outNbrs) f f (Nat.le_refl f)
      m hmf ((visFront g.outNbrs s f).1.length + 1) (by omega) pf).mp hpf with ⟨hwpf, hlenpf⟩
    rcases (enumPaths_spec g.inNbrs t (fun a b => g.edgeB b a) (fun u v => mem_inNbrs) b b
      (Nat.le_refl b) m hmb ((visFront g.inNbrs t b).1.length + 1) (by omega) pb).mp hpb with
      ⟨hwpb, hlenpb⟩
    have hwrev : IsWalk g.edgeB m t pb.reverse := isWalk_flip_iff.mp hwpb
    rcases isWalk_append hwpf hwrev with ⟨hw, hlen⟩
    have hplen : (pf ++ pb.reverse.tail).length = f + b + 1 := by
      rw [List.length_reverse] at hlen
      omega
    refine ⟨hw, ?_⟩
    intro q hq
    have hqpos : 1 ≤ q.length := List.length_pos.mpr hq.ne_nil
    have hqw : hasWalkLen g.edgeB s t (q.length - 1) := ⟨q, hq, by omega⟩
    have := hlow _ hqw
    omega
  · rintro ⟨hw, hshort⟩
    have hppos : 1 ≤ p.length := List.length_pos.mpr hw.ne_nil
    have hpw : hasWalkLen g.edgeB s t (p.length - 1) := ⟨p, hw, by omega⟩
    have hlo := hlow _ hpw
    have hup : p.length ≤ f + b + 1 := by
      rcases hd with ⟨p0, hw0, hl0⟩
      have := hshort p0 hw0
      omega
    have hplen : p.length = f + b + 1 := by omega
    have hflt : f < p.length := by omega
    set m := p.get ⟨f, hflt⟩ with hmdef
    have hp1 : IsWalk g.edgeB s m (p.take (f + 1)) := isWalk_take hw hflt
    have hp1len : (p.take (f + 1)).length = f + 1 := by
      rw [List.length_take]
      omega
    have hp2 : IsWalk g.edgeB m t (p.drop f) := isWalk_drop hw hflt
    have hp2len : (p.drop f).length = b + 1 := by
      rw [List.length_drop]
      omega
    have hmF : m ∈ vmKeys (visFront g.outNbrs s f).1 :=
      ((visFront_spec g.outNbrs s g.edgeB (fun u v => mem_outNbrs) f).1 m).mpr
        ⟨f, Nat.le_refl f, ⟨p.take (f + 1), hp1, hp1len⟩⟩
    have hmB : m ∈ vmKeys (visFront g.inNbrs t b).1 :=
      ((visFront_spec g.inNbrs t (fun a b => g.edgeB b a) (fun u v => mem_inNbrs) b).1 m).mpr
        ⟨b, Nat.le_refl b, hasWalkLen_flip_iff.mpr ⟨p.drop f, hp2, hp2len⟩⟩
    have hm : m ∈ listInter (vmKeys (visFront g.outNbrs s f).1)
        (vmKeys (visFront g.inNbrs t b).1) := mem_listInter.mpr ⟨hmF, hmB⟩
    rcases hchar m hm with ⟨hmf, hmb⟩
    have hlenF : f + 1 ≤ (visFront g.outNbrs s f).1.length :=
      length_vis_of_front_ne g.outNbrs s f (List.ne_nil_of_mem hmf)
    have hlenB : b + 1 ≤ (visFront g.inNbrs t b).1.length :=
      length_vis_of_front_ne g.inNbrs t b (List.ne_nil_of_mem hmb)
    refine ⟨m, hm, p.take (f + 1), ?_, (p.drop f).reverse, ?_, ?_⟩
    · exact (enumPaths_spec g.outNbrs s g.edgeB (fun u v => mem_outNbrs) f f (Nat.le_refl f)
        m hmf ((visFront g.outNbrs s f).1.length + 1) (by omega) _).mpr ⟨hp1, hp1len⟩
    · refine (enumPaths_spec g.inNbrs t (fun a b => g.edgeB b a) (fun u v => mem_inNbrs) b b
        (Nat.le_refl b) m hmb ((visFront g.inNbrs t b).1.length + 1) (by omega) _).mpr ⟨?_, ?_⟩
      · rw [isWalk_flip_iff, List.reverse_reverse]
        exact hp2
      · rw [List.length_reverse]
        exact hp2len
    · rw [List.reverse_reverse]
      exact take_succ_append_drop_tail hflt

/-! Unreachability: an emptied frontier with disjoint visited sets. -/

theorem visFront_succ_fst (nbrs : Nat → List Nat) (s : Nat) (k : Nat) :
    (visFront nbrs s (k + 1)).1 =
      (visFront nbrs s k).1 ++
        expandFront nbrs (vmKeys (visFront nbrs s k).1) (visFront nbrs s k).2 := rfl

theorem visFront_succ_snd (nbrs : Nat → List Nat) (s : Nat) (k : Nat) :
    (visFront nbrs s (k + 1)).2 =
      vmKeys (expandFront nbrs (vmKeys (visFront nbrs s k).1) (visFront nbrs s k).2) := rfl

theorem front_empty_ge (nbrs : Nat → List Nat) (s : Nat) {j : Nat}
    (hj : (visFront nbrs s j).2 = []) :
    ∀ {k : Nat}, j ≤ k → (visFront nbrs s k).2 = [] := by
  intro k
  induction k with
  | zero =>
    intro hk
    have : j = 0 := Nat.le_zero.mp hk
    subst this
    exact hj
  | succ k ih =>
    intro hk
    rcases Nat.lt_or_ge j (k + 1) with hlt | hge
    · have hk2 := ih (Nat.lt_succ_iff.mp hlt)
      rw [visFront_succ_snd, hk2, expandFront_nil_front]
      rfl
    · have : j = k + 1 := Nat.le_antisymm hk hge
      subst this
      exact hj

theorem reach_mem_front (nbrs : Nat → List Nat) (s : Nat) (E : Nat → Nat → Bool)
    (hE : ∀ u v, v ∈ nbrs u ↔ E u v = true) {v n : Nat}
    (h : hasWalkLen E s v n) : ∃ j, j ≤ n ∧ v ∈ (visFront nbrs s j).2 := by
  rcases exists_distIs ⟨n, h⟩ with ⟨d, hd, hmin⟩
  refine ⟨d, hmin n h, ?_⟩
  refine ((visFront_spec nbrs s E hE d).2 v).mpr ⟨hd, ?_⟩
  intro i hi hwi
  have := hmin i hwi
  omega

theorem root_mem_keys (nbrs : Nat → List Nat) (s : Nat) (k : Nat) :
    s ∈ vmKeys (visFront nbrs s k).1 := by
  refine keys_mono nbrs s (Nat.zero_le k) ?_
  simp [visFront, vmKeys]

theorem unreachable_of_front_empty (g : Graph) (s t : Nat) {f b : Nat}
    (hdisj : ∀ v, v ∈ vmKeys (visFront g.outNbrs s f).1 →
      v ∈ vmKeys (visFront g.inNbrs t b).1 → False)
    (hemp : (visFront g.outNbrs s f).2 = [] ∨ (visFront g.inNbrs t b).2 = []) :
    ¬ ∃ p, IsWalk g.edgeB s t p := by
  rintro ⟨p, hp⟩
  have hppos : 1 ≤ p.length := List.length_pos.mpr hp.ne_nil
  have hL : hasWalkLen g.edgeB s t (p.length - 1) := ⟨p, hp, by omega⟩
  rcases hemp with hemp | hemp
  · rcases reach_mem_front g.outNbrs s g.edgeB (fun u v => mem_outNbrs) hL with ⟨jt, hjt, hmem⟩
    have hjtlt : jt < f := by
      by_contra hcon
      push_neg at hcon
      rw [front_empty_ge g.outNbrs s hemp hcon] at hmem
      simp at hmem
    have htF : t ∈ vmKeys (visFront g.outNbrs s f).1 :=
      keys_mono g.outNbrs s (by omega) (front_subset_keys g.outNbrs s jt t hmem)
    exact hdisj t htF (root_mem_keys g.inNbrs t b)
  · have hLb : hasWalkLen (fun a c => g.edgeB c a) t s (p.length - 1) :=
      hasWalkLen_flip_iff.mpr hL
    rcases reach_mem_front g.inNbrs t (fun a c => g.edgeB c a) (fun u v => mem_inNbrs) hLb with
      ⟨js, hjs, hmem⟩
    have hjslt : js < b := by
      by_contra hcon
      push_neg at hcon
      rw [front_empty_ge g.inNbrs t hemp hcon] at hmem
      simp at hmem
    have hsB : s ∈ vmKeys (visFront g.inNbrs t b).1 :=
      keys_mono g.inNbrs t (by omega) (front_subset_keys g.inNbrs t js s hmem)
    exact hdisj s (root_mem_keys g.outNbrs s f) hsB

/-! Generation bounds from the edge list. -/

theorem outNbrs_subset (g : Graph) : ∀ u v, v ∈ g.outNbrs u → v ∈ g.edges.map Prod.snd := by
  intro u v hv
  rcases List.mem_map.mp hv with ⟨e, he, rfl⟩
  exact List.mem_map_of_mem _ (List.mem_of_mem_filter he)

theorem inNbrs_subset (g : Graph) : ∀ u v, v ∈ g.inNbrs u → v ∈ g.edges.map Prod.fst := by
  intro u v hv
  rcases List.mem_map.mp hv with ⟨e, he, rfl⟩
  exact List.mem_map_of_mem _ (List.mem_of_mem_filter he)

theorem front_fwd_bound (g : Graph) (s : Nat) {f : Nat}
    (h : (visFront g.outNbrs s f).2 ≠ []) : f ≤ g.edges.length := by
  have := front_ne_nil_bound g.outNbrs s (g.edges.map Prod.snd) (outNbrs_subset g) f h
  rw [List.length_map] at this
  exact this

theorem front_bwd_bound (g : Graph) (t : Nat) {b : Nat}
    (h : (visFront g.inNbrs t b).2 ≠ []) : b ≤ g.edges.length := by
  have := front_ne_nil_bound g.inNbrs t (g.edges.map Prod.fst) (inNbrs_subset g) b h
  rw [List.length_map] at this
  exact this

theorem bfsLoop_correct (g : Graph) (chooser : BiState → Dir) (s t : Nat) :
    ∀ fuel f b fd bd,
      (∀ v, v ∈ vmKeys (visFront g.outNbrs s f).1 →
        v ∈ vmKeys (visFront g.inNbrs t b).1 → False) →
      f + b ≤ 2 * g.edges.length + 2 →
      2 * g.edges.length + 3 ≤ fuel + (f + b) →
      (bfsLoop g chooser fuel
          ⟨(visFront g.outNbrs s f).1, (visFront g.outNbrs s f).2, fd,
           (visFront g.inNbrs t b).1, (visFront g.inNbrs t b).2, bd⟩).Nodup ∧
      (∀ p, p ∈ bfsLoop g chooser fuel
          ⟨(visFront g.outNbrs s f).1, (visFront g.outNbrs s f).2, fd,
           (visFront g.inNbrs t b).1, (visFront g.inNbrs t b).2, bd⟩ ↔
        IsShortestWalk g.edgeB s t p) := by
  intro fuel
  induction fuel with
  | zero =>
    intro f b fd bd hdisj hsum hfuel
    exfalso
    omega
  | succ fuel ih =>
    intro f b fd bd hdisj hsum hfuel
    by_cases hfe : ((visFront g.outNbrs s f).2.isEmpty || (visFront g.inNbrs t b).2.isEmpty) = true
    · have hemp : (visFront g.outNbrs s f).2 = [] ∨ (visFront g.inNbrs t b).2 = [] := by
        rcases Bool.or_eq_true _ _ |>.mp hfe with h | h
        · exact Or.inl (List.isEmpty_iff.mp h)
        · exact Or.inr (List.isEmpty_iff.mp h)
      rw [bfsLoop, if_pos hfe]
      refine ⟨List.nodup_nil, fun p => ⟨fun hp => absurd hp (List.not_mem_nil p), fun hs => ?_⟩⟩
      exact absurd ⟨p, hs.1⟩ (unreachable_of_front_empty g s t hdisj hemp)
    · have hfe2 := hfe
      simp only [Bool.or_eq_true, not_or, List.isEmpty_iff] at hfe2
      rcases hfe2 with ⟨hffne, hbfne⟩
      have hfb : f ≤ g.edges.length := front_fwd_bound g s hffne
      have hbb : b ≤ g.edges.length := front_bwd_bound g t hbfne
      rw [bfsLoop, if_neg hfe]
      cases hch : chooser ⟨(visFront g.outNbrs s f).1, (visFront g.outNbrs s f).2, fd,
          (visFront g.inNbrs t b).1, (visFront g.inNbrs t b).2, bd⟩ with
      | fwd =>
        simp only [hch]
        rw [← visFront_succ_fst g.outNbrs s f, ← visFront_succ_snd g.outNbrs s f]
        by_cases hmi : (listInter (vmKeys (visFront g.outNbrs s (f + 1)).1)
            (vmKeys (visFront g.inNbrs t b).1)).isEmpty = true
        · rw [if_pos hmi]
          have hdisj2 : ∀ v, v ∈ vmKeys (visFront g.outNbrs s (f + 1)).1 →
              v ∈ vmKeys (visFront g.inNbrs t b).1 → False := by
            intro v hv1 hv2
            exact (listInter_eq_nil_iff.mp (List.isEmpty_iff.mp hmi)) v hv1 hv2
          exact ih (f + 1) b (fd + 1) bd hdisj2 (by omega) (by omega)
        · rw [if_neg hmi]
          rw [List.isEmpty_iff] at hmi
          refine ⟨List.nodup_dedup _, fun p => ?_⟩
          exact stop_correct g s t (Nat.le_succ f) (Nat.le_refl b) (by omega) hdisj hmi p
      | bwd =>
        simp only [hch]
        rw [← visFront_succ_fst g.inNbrs t b, ← visFront_succ_snd g.inNbrs t b]
        by_cases hmi : (listInter (vmKeys (visFront g.outNbrs s f).1)
            (vmKeys (visFront g.inNbrs t (b + 1)).1)).isEmpty = true
        · rw [if_pos hmi]
          have hdisj2 : ∀ v, v ∈ vmKeys (visFront g.outNbrs s f).1 →
              v ∈ vmKeys (visFront g.inNbrs t (b + 1)).1 → False := by
            intro v hv1 hv2
            exact (listInter_eq_nil_iff.mp (List.isEmpty_iff.mp hmi)) v hv1 hv2
          exact ih f (b + 1) fd (bd + 1) hdisj2 (by omega) (by omega)
        · rw [if_neg hmi]
          rw [List.isEmpty_iff] at hmi
          refine ⟨List.nodup_dedup _, fun p => ?_⟩
          exact stop_correct g s t (Nat.le_refl f) (Nat.le_succ b) (by omega) hdisj hmi p

theorem bfsRun_correct (g : Graph) (chooser : BiState → Dir) (s t : Nat) :
    (bfsRun g chooser s t).Nodup ∧
    (∀ p, p ∈ bfsRun g chooser s t ↔ IsShortestWalk g.edgeB s t p) := by
  by_cases hst : s = t
  · subst hst
    rw [bfsRun, if_pos rfl]
    refine ⟨by simp, fun p => ?_⟩
    simp only [List.mem_singleton]
    constructor
    · rintro rfl
      refine ⟨isWalk_singleton.mpr ⟨rfl, rfl⟩, ?_⟩
      intro q hq
      have := List.length_pos.mpr hq.ne_nil
      simp only [List.length_singleton]
      omega
    · rintro ⟨hw, hshort⟩
      have hle : p.length ≤ 1 := by
        simpa using hshort [s] (isWalk_singleton.mpr ⟨rfl, rfl⟩)
      have hpos : 1 ≤ p.length := List.length_pos.mpr hw.ne_nil
      exact (isWalk_len_one hw (by omega)).1
  · rw [bfsRun, if_neg hst]
    have hdisj : ∀ v, v ∈ vmKeys (visFront g.outNbrs s 0).1 →
        v ∈ vmKeys (visFront g.inNbrs t 0).1 → False := by
      intro v hv1 hv2
      simp [visFront, vmKeys] at hv1 hv2
      rw [hv1] at hv2
      exact hst hv2
    have hfuel : 2 * g.edges.length + 3 ≤ searchFuel g + (0 + 0) := by
      rw [searchFuel]
    exact bfsLoop_correct g chooser s t (searchFuel g) 0 0 0 0 hdisj (by omega) hfuel

theorem reachable_iff_mem_keys (g : Graph) (s t : Nat) :
    (∃ p, IsWalk g.edgeB s t p) ↔
      t ∈ vmKeys (visFront g.outNbrs s g.edges.length).1 := by
  constructor
  · rintro ⟨p, hp⟩
    have hppos : 1 ≤ p.length := List.length_pos.mpr hp.ne_nil
    have hL : hasWalkLen g.edgeB s t (p.length - 1) := ⟨p, hp, by omega⟩
    rcases reach_mem_front g.outNbrs s g.edgeB (fun u v => mem_outNbrs) hL with ⟨j, hj, hmem⟩
    have hjb : j ≤ g.edges.length := front_fwd_bound g s (List.ne_nil_of_mem hmem)
    exact keys_mono g.outNbrs s hjb (front_subset_keys g.outNbrs s j t hmem)
  · intro h
    rcases ((visFront_spec g.outNbrs s g.edgeB (fun u v => mem_outNbrs) g.edges.length).1 t).mp h
      with ⟨j, hj, p, hp, hlen⟩
    exact ⟨p, hp⟩

instance isWalk_decidable (E : Nat → Nat → Bool) (s t : Nat) (p : List Nat) :
    Decidable (IsWalk E s t p) :=
  decidable_of_iff (p.head? = some s ∧ p.getLast? = some t ∧ chainB E p = true) Iff.rfl

/-- The diamond graph of spec section 8 (A=0, B=1, C=2, D=3). -/
def exampleDiamond : Graph := ⟨[0, 1, 2, 3], [(0, 1), (0, 2), (1, 3), (2, 3)]⟩

/-- The disconnected graph of spec section 8 (A=0, B=1, C=2, D=3). -/
def exampleDisconnected : Graph := ⟨[0, 1, 2, 3], [(0, 1), (2, 3)]⟩

/-- A two-node store used to exercise the invalid-id fast path. -/
def exampleStore : Graph := ⟨[1, 2], [(1, 2)]⟩

/-- C1: for every graph and every reachable (source, target) pair, the path
list of the cost-based breadth-first search has no duplicates, every returned
path has node length equal to the true graph distance plus one, and a path is
returned exactly when it is a shortest path from source to target. -/
theorem C1_paths_are_exactly_all_shortest (g : Graph) (s t : Nat) (p0 : List Nat)
    (h : IsWalk g.edgeB s t p0) :
    (breadth_first_search g s t).Nodup ∧
    (∃ d, distIs g.edgeB s t d ∧ ∀ p ∈ breadth_first_search g s t, p.length = d + 1) ∧
    (∀ p, p ∈ breadth_first_search g s t ↔ IsShortestWalk g.edgeB s t p) := by
  obtain ⟨hnd, hiff⟩ := bfsRun_correct g (costChooser g) s t
  refine ⟨hnd, ?_, hiff⟩
  have hppos : 1 ≤ p0.length := List.length_pos.mpr h.ne_nil
  rcases exists_distIs ⟨p0.length - 1, p0, h, by omega⟩ with ⟨d, hd⟩
  refine ⟨d, hd, ?_⟩
  intro p hp
  rcases (hiff p).mp hp with ⟨hw, hshort⟩
  rcases hd.1 with ⟨q, hq, hqlen⟩
  have h1 := hshort q hq
  have hppos2 : 1 ≤ p.length := List.length_pos.mpr hw.ne_nil
  have h2 := hd.2 (p.length - 1) ⟨p, hw, by omega⟩
  omega

/-- Witness for C1 at the diamond graph with the explicit path 0-1-3. -/
theorem C1_paths_are_exactly_all_shortest_witness :
    IsWalk exampleDiamond.edgeB 0 3 [0, 1, 3] ∧
    ((breadth_first_search exampleDiamond 0 3).Nodup ∧
     (∃ d, distIs exampleDiamond.edgeB 0 3 d ∧
        ∀ p ∈ breadth_first_search exampleDiamond 0 3, p.length = d + 1) ∧
     (∀ p, p ∈ breadth_first_search exampleDiamond 0 3 ↔
        IsShortestWalk exampleDiamond.edgeB 0 3 p)) :=
  ⟨by decide, C1_paths_are_exactly_all_shortest exampleDiamond 0 3 [0, 1, 3] (by decide)⟩

/-- C2: running the search with source equal to target returns exactly the
one-element list holding the single-node path. -/
theorem C2_trivial_path (g : Graph) (n : Nat) : breadth_first_search g n n = [[n]] := by
  rw [breadth_first_search, bfsRun, if_pos rfl]

/-- C3: when no path from source to target exists the search returns the
empty path list (a successful result of the total function, not an error). -/
theorem C3_unreachable_returns_empty (g : Graph) (s t : Nat)
    (h : ¬ ∃ p, IsWalk g.edgeB s t p) : breadth_first_search g s t = [] := by
  obtain ⟨-, hiff⟩ := bfsRun_correct g (costChooser g) s t
  refine List.eq_nil_iff_forall_not_mem.mpr ?_
  intro p hp
  exact h ⟨p, ((hiff p).mp hp).1⟩

/-- Witness for C3 at the disconnected graph, 0 to 3. -/
theorem C3_unreachable_returns_empty_witness :
    (¬ ∃ p, IsWalk exampleDisconnected.edgeB 0 3 p) ∧
    breadth_first_search exampleDisconnected 0 3 = [] :=
  have hnr : ¬ ∃ p, IsWalk exampleDisconnected.edgeB 0 3 p := fun hr =>
    absurd ((reachable_iff_mem_keys exampleDisconnected 0 3).mp hr) (by decide)
  ⟨hnr, C3_unreachable_returns_empty exampleDisconnected 0 3 hnr⟩

/-- C9: the forced always-forward and always-backward engine variants return
the same path set (membership-wise) as the cost-based engine, on every graph
and every pair. -/
theorem C9_direction_choice_never_changes_result (g : Graph) (s t : Nat) (p : List Nat) :
    (p ∈ breadth_first_search_fwd g s t ↔ p ∈ breadth_first_search g s t) ∧
    (p ∈ breadth_first_search_bwd g s t ↔ p ∈ breadth_first_search g s t) := by
  obtain ⟨-, h1⟩ := bfsRun_correct g (fun _ => Dir.fwd) s t
  obtain ⟨-, h2⟩ := bfsRun_correct g (fun _ => Dir.bwd) s t
  obtain ⟨-, h0⟩ := bfsRun_correct g (costChooser g) s t
  exact ⟨(h1 p).trans (h0 p).symm, (h2 p).trans (h0 p).symm⟩

/-- C6: an id absent from the store makes the engine entry point fail with
InvalidArgument, independently of the search itself. -/
theorem C6_invalid_id_fails_fast (g : Graph) (s t : Nat)
    (h : ¬ s ∈ g.nodes ∨ ¬ t ∈ g.nodes) :
    compute_shortest_paths g s t = Except.error EngineError.invalidArgument := by
  rcases h with h | h
  · simp [compute_shortest_paths, validate_page_id, h]
  · by_cases hs : s ∈ g.nodes
    · simp [compute_shortest_paths, validate_page_id, hs, h]
    · simp [compute_shortest_paths, validate_page_id, hs]

/-- Witness for C6 with the id 5 absent from the two-node store. -/
theorem C6_invalid_id_fails_fast_witness :
    (¬ (5 : Nat) ∈ exampleStore.nodes ∨ ¬ (1 : Nat) ∈ exampleStore.nodes) ∧
    compute_shortest_paths exampleStore 5 1 = Except.error EngineError.invalidArgument :=
  ⟨Or.inl (by decide), C6_invalid_id_fails_fast exampleStore 5 1 (Or.inl (by decide))⟩

/-- A database whose links table has a row for id 2 only. -/
def exampleDbNoRow : Db := ⟨[], [], [⟨2, [3], [], 1, 0⟩]⟩

/-- A database whose links table has a row for id 1. -/
def exampleDbRow : Db := ⟨[], [], [⟨1, [2, 3], [], 2, 0⟩]⟩

/-- C4 counterexample: requesting id 1 against a links table with no row for
id 1 yields a cursor with no entry for 1 at all, not an entry with an empty
neighbor set. -/
theorem C4_counterexample :
    ¬ ∃ rows, fetch_links_helper exampleDbNoRow [1] LinkCol.outgoing = Except.ok rows ∧
      ∃ ps, ((1 : Nat), ps) ∈ rows := by
  rintro ⟨rows, hrows, ps, hps⟩
  have hok : fetch_links_helper exampleDbNoRow [1] LinkCol.outgoing = Except.ok [] := by rfl
  rw [hok] at hrows
  injection hrows with h
  rw [← h] at hps
  simp at hps

/-- C4 amended: for a non-empty request, the helper succeeds and its result
holds an entry for an id exactly when the id was requested and the links
table has a row for it. -/
theorem C4_row_per_requested_id_with_table_row (db : Db) (ids : List Nat) (c : LinkCol)
    (h : ids ≠ []) :
    ∃ rows, fetch_links_helper db ids c = Except.ok rows ∧
      ∀ i : Nat, (∃ ps, (i, ps) ∈ rows) ↔ (i ∈ ids ∧ ∃ r ∈ db.links, r.id = i) := by
  have hne : ¬ ids.isEmpty = true := by
    rw [List.isEmpty_iff]
    exact h
  refine ⟨_, by rw [fetch_links_helper, if_neg hne], ?_⟩
  intro i
  constructor
  · rintro ⟨ps, hmem⟩
    rcases List.mem_map.mp hmem with ⟨r, hr, heq⟩
    rcases List.mem_filter.mp hr with ⟨hrl, hcont⟩
    have hid : r.id = i := by
      have := congrArg Prod.fst heq
      simpa using this
    refine ⟨?_, r, hrl, hid⟩
    rw [← hid]
    exact (contains_true_iff _ _).mp hcont
  · rintro ⟨hi, r, hr, hrid⟩
    refine ⟨linksOf r c, List.mem_map.mpr ⟨r, List.mem_filter.mpr ⟨hr, ?_⟩, ?_⟩⟩
    · rw [hrid]
      exact (contains_true_iff _ _).mpr hi
    · rw [hrid]

/-- Witness for the amended C4 at a concrete table and request set. -/
theorem C4_row_per_requested_id_with_table_row_witness :
    ([1, 7] : List Nat) ≠ [] ∧
    (∃ rows, fetch_links_helper exampleDbRow [1, 7] LinkCol.outgoing = Except.ok rows ∧
      ∀ i : Nat, (∃ ps, (i, ps) ∈ rows) ↔ (i ∈ [1, 7] ∧ ∃ r ∈ exampleDbRow.links, r.id = i)) :=
  ⟨by decide, C4_row_per_requested_id_with_table_row exampleDbRow [1, 7] LinkCol.outgoing
    (by decide)⟩

/-- C5 counterexample: when no requested id has a links row, the SQL SUM is
NULL, so the helper returns None rather than any integer. -/
theorem C5_counterexample :
    ¬ ∃ n : Nat, fetch_links_count_helper exampleDbNoRow [1] LinkCol.outgoing =
      Except.ok (some n) := by
  rintro ⟨n, hn⟩
  have hok : fetch_links_count_helper exampleDbNoRow [1] LinkCol.outgoing = Except.ok none := by
    rfl
  rw [hok] at hn
  injection hn with h
  exact Option.noConfusion h

/-- C5 amended: for a non-empty request the helper returns the sum of the
counter column over the matching rows, as `some`, when at least one requested
id has a row, and NULL (`none`) when none has. -/
theorem C5_sum_of_matching_counters (db : Db) (ids : List Nat) (c : LinkCol) (h : ids ≠ []) :
    fetch_links_count_helper db ids c =
      Except.ok (if (db.links.filter (fun r => ids.contains r.id)).isEmpty then none
        else some (((db.links.filter (fun r => ids.contains r.id)).map
          (fun r => countOf r c)).sum)) := by
  have hne : ¬ ids.isEmpty = true := by
    rw [List.isEmpty_iff]
    exact h
  simp only [fetch_links_count_helper]
  rw [if_neg hne]
  by_cases hrows : (db.links.filter (fun r => ids.contains r.id)).isEmpty = true
  · rw [if_pos hrows, if_pos hrows]
  · rw [if_neg hrows, if_neg hrows]

/-- Witness for the amended C5 at a concrete table and request set. -/
theorem C5_sum_of_matching_counters_witness :
    ([1] : List Nat) ≠ [] ∧
    fetch_links_count_helper exampleDbRow [1] LinkCol.outgoing =
      Except.ok (if (exampleDbRow.links.filter (fun r => [1].contains r.id)).isEmpty then none
        else some (((exampleDbRow.links.filter (fun r => [1].contains r.id)).map
          (fun r => countOf r LinkCol.outgoing)).sum)) :=
  ⟨by decide, C5_sum_of_matching_counters exampleDbRow [1] LinkCol.outgoing (by decide)⟩

/-- C10: both batched helpers interpolate the Python tuple rendering of
`page_ids` into the SQL text; an empty collection renders as the malformed
clause `IN ()`, so both fail on empty input (a non-empty collection is a
precondition). -/
theorem C10_empty_page_ids_is_malformed (db : Db) (c : LinkCol) :
    fetch_links_helper db [] c = Except.error SqlError.malformedQuery ∧
    fetch_links_count_helper db [] c = Except.error SqlError.malformedQuery ∧
    render_page_ids [] = ['(', ')'] :=
  ⟨rfl, rfl, rfl⟩

/-- The database invariant guaranteed by the offline pipeline (redirect
pruning, spec section 2): every row of the redirects table points at a
canonical, non-redirect page. -/
def RedirectTargetsCanonical (db : Db) : Prop :=
  ∀ rd ∈ db.redirects, ∀ p ∈ db.pages, p.id = rd.target_id → p.is_redirect = false

instance redirectTargetsCanonical_decidable (db : Db) :
    Decidable (RedirectTargetsCanonical db) := by
  rw [RedirectTargetsCanonical]
  infer_instance

/-- C7: under the pipeline invariant, title resolution either returns the id
of a non-redirect page together with its readable title and the redirect
flag, or raises ValueError, which the route surfaces as an InvalidRequest
(4xx) condition. -/
theorem C7_title_resolution (db : Db) (title : List Char) (hdb : RedirectTargetsCanonical db) :
    (∃ pid ttl red, fetch_page db title = Except.ok (pid, ttl, red) ∧
       ∃ pr ∈ db.pages, pr.id = pid ∧ pr.is_redirect = false ∧
         ttl = get_readable_page_title pr.title) ∨
    (fetch_page db title = Except.error DbError.valueError ∧
     route_fetch_page db title = Except.error RouteErr.invalidRequest) := by
  cases hres : db.pages.filter
      (fun r => lowerChars r.title == lowerChars (get_sanitized_page_title title)) with
  | nil =>
    right
    have herr : fetch_page db title = Except.error DbError.valueError := by
      rw [fetch_page, hres]
    exact ⟨herr, by rw [route_fetch_page, herr]⟩
  | cons r0 rest =>
    have hsub : ∀ r, r ∈ r0 :: rest → r ∈ db.pages := by
      intro r hr
      rw [← hres] at hr
      exact List.mem_of_mem_filter hr
    cases hf1 : (r0 :: rest).find?
        (fun r => r.title == get_sanitized_page_title title && !r.is_redirect) with
    | some r =>
      left
      have hpred := List.find?_some hf1
      have hmem := hsub r (List.mem_of_find?_eq_some hf1)
      have hred : r.is_redirect = false := by
        rcases Bool.and_eq_true _ _ |>.mp hpred with ⟨-, h2⟩
        simpa using h2
      refine ⟨r.id, get_readable_page_title r.title, false, ?_, r, hmem, rfl, hred, rfl⟩
      simp only [fetch_page, hres, hf1]
    | none =>
      cases hf2 : (r0 :: rest).find? (fun r => !r.is_redirect) with
      | some r =>
        left
        have hpred := List.find?_some hf2
        have hmem := hsub r (List.mem_of_find?_eq_some hf2)
        have hred : r.is_redirect = false := by simpa using hpred
        refine ⟨r.id, get_readable_page_title r.title, false, ?_, r, hmem, rfl, hred, rfl⟩
        simp only [fetch_page, hres, hf1, hf2]
      | none =>
        cases hjoin : ((db.redirects.filter (fun rd => rd.source_id == r0.id)).flatMap
            (fun rd => (db.pages.filter (fun p => p.id == rd.target_id)).map
              (fun p => (rd.target_id, p.title)))).head? with
        | none =>
          right
          have herr : fetch_page db title = Except.error DbError.valueError := by
            simp only [fetch_page, hres, hf1, hf2, hjoin]
          exact ⟨herr, by rw [route_fetch_page, herr]⟩
        | some pair =>
          left
          rcases pair with ⟨tid, ttl0⟩
          have hmempair : (tid, ttl0) ∈ (db.redirects.filter
              (fun rd => rd.source_id == r0.id)).flatMap
              (fun rd => (db.pages.filter (fun p => p.id == rd.target_id)).map
                (fun p => (rd.target_id, p.title))) := by
            rcases hl : (db.redirects.filter (fun rd => rd.source_id == r0.id)).flatMap
                (fun rd => (db.pages.filter (fun p => p.id == rd.target_id)).map
                  (fun p => (rd.target_id, p.title))) with _ | ⟨x, xs⟩
            · rw [hl] at hjoin
              simp at hjoin
            · rw [hl] at hjoin
              simp at hjoin
              rw [hl, hjoin]
              exact List.mem_cons_self ..
          rcases List.mem_flatMap.mp hmempair with ⟨rd, hrd, hmem2⟩
          rcases List.mem_map.mp hmem2 with ⟨p, hp, heq⟩
          have hrdm : rd ∈ db.redirects := List.mem_of_mem_filter hrd
          rcases List.mem_filter.mp hp with ⟨hpm, hpid⟩
          have hpid2 : p.id = rd.target_id := by simpa using hpid
          have htid : rd.target_id = tid := by
            have := congrArg Prod.fst heq
            simpa using this
          have httl : p.title = ttl0 := by
            have := congrArg Prod.snd heq
            simpa using this
          have hred : p.is_redirect = false := hdb rd hrdm p hpm hpid2
          refine ⟨tid, get_readable_page_title ttl0, true, ?_,
            p, hpm, by rw [hpid2, htid], hred, by rw [httl]⟩
          simp only [fetch_page, hres, hf1, hf2, hjoin]

/-- A database exercising the redirect branch of fetch_page: the only title
match is a redirect whose redirect row points to the canonical page 2. -/
def exampleDbRedirect : Db :=
  ⟨[⟨1, "Foo_bar".data, true⟩, ⟨2, "Baz".data, false⟩], [⟨1, 2⟩], []⟩

/-- Witness for C7 at a concrete database and the title "foo Bar". -/
theorem C7_title_resolution_witness :
    RedirectTargetsCanonical exampleDbRedirect ∧
    ((∃ pid ttl red, fetch_page exampleDbRedirect "foo Bar".data = Except.ok (pid, ttl, red) ∧
       ∃ pr ∈ exampleDbRedirect.pages, pr.id = pid ∧ pr.is_redirect = false ∧
         ttl = get_readable_page_title pr.title) ∨
     (fetch_page exampleDbRedirect "foo Bar".data = Except.error DbError.valueError ∧
      route_fetch_page exampleDbRedirect "foo Bar".data = Except.error RouteErr.invalidRequest)) :=
  ⟨by decide, C7_title_resolution exampleDbRedirect ("foo Bar".data) (by decide)⟩

/-- C8: the response built from the already-computed paths is returned
unchanged whether or not the analytics INSERT raises; the failure is caught
and never surfaces. -/
theorem C8_analytics_failure_not_propagated (srcTitle tgtTitle : List Char) (srcRed tgtRed : Bool)
    (paths : List (List Nat)) (pagesInfo : List Nat) (execOk : Bool) :
    (shortest_paths_route_tail srcTitle tgtTitle srcRed tgtRed paths pagesInfo execOk).paths =
      paths ∧
    shortest_paths_route_tail srcTitle tgtTitle srcRed tgtRed paths pagesInfo false =
      shortest_paths_route_tail srcTitle tgtTitle srcRed tgtRed paths pagesInfo true := by
  constructor
  · by_cases hp : paths.length = 0
    · have hnil : paths = [] := List.length_eq_zero.mp hp
      subst hnil
      cases execOk <;> rfl
    · cases execOk <;> simp [shortest_paths_route_tail, insert_result, hp]
  · by_cases hp : paths.length = 0
    · cases hq : paths <;> simp [shortest_paths_route_tail, insert_result]
    · simp [shortest_paths_route_tail, insert_result, hp]
